import Mathlib

/-!
Verification of the cosmic-gopass-plugin launcher engine.

The repository implements a pop-launcher plugin: a session engine
(`launcher.Run`) reads line-delimited JSON commands (`Search`, `Activate`,
`Interrupt`, `Exit`) and answers with replies (`Clear`, `Append`, `Finished`,
`Close`).  Every command path first cancels-and-joins the single in-flight
search goroutine before emitting anything, and all output lines go through one
mutex, so the observable reply trace of the concurrent Go program coincides
with a sequential interpretation of the command list in which the replies of a
(possibly cancelled) search are flushed, as one contiguous block, at the point
where the engine joins the search task (or at end of input, where the
still-running goroutine completes uncancelled).  Cancellation is cooperative
and truncates the stream of appended results at an arbitrary prefix; we make
that nondeterminism explicit through an oracle (`List Nat`) of cancel points.

A search provider is modelled as the list of results its callback would append
in an uncancelled run together with its error flag (`String → List SearchResult
× Bool`); the activation handler as `String → Bool` (`true` = error).  Events
record emitted replies, collaborator invocations and error-log lines.
-/

namespace GopassLauncher

/-- One item passed to `appendResult` by the `OnSearch` callback
(launcher.SearchResult in the Go source: Name, Description, IconName,
where an empty IconName means "no icon"). -/
structure SearchResult where
  name : String
  description : String
  iconName : String
deriving DecidableEq, Repr

/-- One outbound wire line of the engine. `Append` carries the fields of the
JSON `Append` object: id, name, description and the optional icon name. -/
inductive Reply where
  | Clear : Reply
  | Append (id : Nat) (name : String) (descr : String) (icon : Option String) : Reply
  | Finished : Reply
  | Close : Reply
deriving DecidableEq, Repr

/-- One decoded inbound line. `Unhandled` stands for lines that decode but hit
the `default` branch of the dispatch (e.g. `Complete`/`Context` requests);
`Malformed` for lines that fail to decode at all. -/
inductive Cmd where
  | Search (q : String) : Cmd
  | Activate (i : Nat) : Cmd
  | Interrupt : Cmd
  | Exit : Cmd
  | Unhandled : Cmd
  | Malformed : Cmd
deriving DecidableEq, Repr

/-- Observable events of a run: an emitted reply line, an invocation of the
Search Provider (`OnSearch`), an invocation of the Activation Handler
(`OnActivate`, recording whether it returned an error), or an error-log line
(`l.Printf("ERROR: ...")`). -/
inductive Ev where
  | emit (r : Reply) : Ev
  | searchCall (q : String) : Ev
  | activateCall (label : String) (errored : Bool) : Ev
  | logged : Ev
deriving DecidableEq, Repr

/-- A Search Provider: for a query, the list of results the `OnSearch`
callback appends in an uncancelled run, and whether it returns an error. -/
abbrev Provider := String → List SearchResult × Bool

/-- Engine-owned mutable state: the published Result Table (`lastResults`)
and the query of the in-flight search task, if one is alive
(`searchCancel != nil`). -/
structure EngState where
  lastResults : List String
  pending : Option String
deriving DecidableEq, Repr

/-- `main.go`: `const maxResults = 19` (same constant in both programs). -/
def maxResults : Nat := 19

/-- The launcher's `appendResult` closure builds an `iconSource` only when the
IconName is nonempty. -/
def iconOf (r : SearchResult) : Option String :=
  if r.iconName = "" then none else some r.iconName

/-- The `appendResult` closure: each result is emitted with
`ID = uint32(len(matched))` and its name is then appended to `matched`. -/
def appendEvs (matched : List String) : List SearchResult → List Ev
  | [] => []
  | r :: rs =>
    .emit (.Append matched.length r.name r.description (iconOf r)) :: appendEvs (matched ++ [r.name]) rs

/-- The full event script of one search task for query `q`, truncated at
cancel point `k`: `"Clear"`, the `OnSearch` invocation, the appends of the
emitted prefix, the error log if the provider failed, and the deferred
`"Finished"`. -/
def blockEvs (prov : Provider) (q : String) (k : Nat) : List Ev :=
  .emit .Clear :: .searchCall q ::
    (appendEvs [] (((prov q).1).take k)
      ++ (if (prov q).2 then [.logged] else [])
      ++ [.emit .Finished])

/-- Engine state after a search for `q` truncated at `k` has published its
accumulator (`lastResults = matched`) and been joined. -/
def flushedState (prov : Provider) (q : String) (k : Nat) : EngState :=
  ⟨(((prov q).1).take k).map (·.name), none⟩

/-- `cancelSearch`: if a search task is alive, signal cancellation (truncating
its appends at oracle point `k`), wait for its own `"Finished"`, and record its
published results; otherwise do nothing. -/
def flushK (prov : Provider) (st : EngState) (k : Nat) : List Ev × EngState :=
  match st.pending with
  | none => ([], st)
  | some q => (blockEvs prov q k, flushedState prov q k)

/-- Number of results an uncancelled run of the pending search would emit
(used at end of input, where nothing ever cancels the task). -/
def searchFull (prov : Provider) (st : EngState) : Nat :=
  match st.pending with
  | none => 0
  | some q => ((prov q).1).length

/-- One iteration of the dispatch loop of `launcher.Run` on a decoded command:
returns the events produced, the new engine state, and whether the loop
continues (`false` only for `Exit`). `k` is the cancel point used if the
command has to join an in-flight search. -/
def stepCmd (prov : Provider) (act : String → Bool) (st : EngState) (c : Cmd) (k : Nat) :
    List Ev × EngState × Bool :=
  match c with
  | .Malformed => ([.logged], st, true)
  | .Unhandled => ([.logged], st, true)
  | .Interrupt =>
    let was := st.pending.isSome
    let p := flushK prov st k
    (p.1 ++ (if was then [] else [.emit .Finished]), p.2, true)
  | .Exit =>
    let p := flushK prov st k
    (p.1 ++ [.emit .Finished], p.2, false)
  | .Search q =>
    let p := flushK prov st k
    (p.1, { p.2 with pending := some q }, true)
  | .Activate i =>
    let p := flushK prov st k
    if h : i < p.2.lastResults.length then
      let label := p.2.lastResults.get ⟨i, h⟩
      let e := act label
      (p.1 ++ [.activateCall label e] ++ (if e then [.logged] else []) ++ [.emit .Close], p.2, true)
    else
      (p.1 ++ [.logged, .emit .Close], p.2, true)

/-- The command loop: process commands in order, threading the cancel-point
oracle (one entry consumed per command), stopping after `Exit`. -/
def procCmds (prov : Provider) (act : String → Bool) :
    EngState → List Cmd → List Nat → List Ev × EngState × Bool
  | st, [], _ => ([], st, true)
  | st, c :: cs, ks =>
    match stepCmd prov act st c (ks.headD 0) with
    | (evs, st1, true) =>
      match procCmds prov act st1 cs ks.tail with
      | (evs2, st2, b) => (evs ++ evs2, st2, b)
    | (evs, st1, false) => (evs, st1, false)

/-- Full run from a given state: process all commands; if input ends without
`Exit`, a still-alive search task runs to completion uncancelled. -/
def runCmds (prov : Provider) (act : String → Bool)
    (st : EngState) (cs : List Cmd) (ks : List Nat) : List Ev :=
  match procCmds prov act st cs ks with
  | (evs, st1, true) => evs ++ (flushK prov st1 (searchFull prov st1)).1
  | (evs, _, false) => evs

/-- `launcher.Run` after a successful `LoadConfig`: the engine starting with
an empty Result Table and no in-flight search. -/
def runEngine (prov : Provider) (act : String → Bool) (cs : List Cmd) (ks : List Nat) : List Ev :=
  runCmds prov act ⟨[], none⟩ cs ks

/-- The reply lines among a list of events (the outbound stream). -/
def outputs : List Ev → List Reply
  | [] => []
  | .emit r :: evs => r :: outputs evs
  | .searchCall _ :: evs => outputs evs
  | .activateCall _ _ :: evs => outputs evs
  | .logged :: evs => outputs evs

/-- The labels the Activation Handler was invoked with. -/
def activationCalls : List Ev → List String
  | [] => []
  | .activateCall l _ :: evs => l :: activationCalls evs
  | .emit _ :: evs => activationCalls evs
  | .searchCall _ :: evs => activationCalls evs
  | .logged :: evs => activationCalls evs

/-- The queries the Search Provider was invoked with. -/
def searchCalls : List Ev → List String
  | [] => []
  | .searchCall q :: evs => q :: searchCalls evs
  | .emit _ :: evs => searchCalls evs
  | .activateCall _ _ :: evs => searchCalls evs
  | .logged :: evs => searchCalls evs

/-- The ids carried by the emitted `Append` lines, in order. -/
def appendIds : List Ev → List Nat
  | [] => []
  | .emit (.Append i _ _ _) :: evs => i :: appendIds evs
  | .emit .Clear :: evs => appendIds evs
  | .emit .Finished :: evs => appendIds evs
  | .emit .Close :: evs => appendIds evs
  | .searchCall _ :: evs => appendIds evs
  | .activateCall _ _ :: evs => appendIds evs
  | .logged :: evs => appendIds evs

/-- The names carried by the emitted `Append` lines, in order. -/
def appendNames : List Ev → List String
  | [] => []
  | .emit (.Append _ n _ _) :: evs => n :: appendNames evs
  | .emit .Clear :: evs => appendNames evs
  | .emit .Finished :: evs => appendNames evs
  | .emit .Close :: evs => appendNames evs
  | .searchCall _ :: evs => appendNames evs
  | .activateCall _ _ :: evs => appendNames evs
  | .logged :: evs => appendNames evs

/-! ## The gopass application callbacks (src/main.go, launcher-based program)

The launcher-based program stores the gopass entries in a
`map[string]string` from the lowercased entry to the original line; map
iteration order is nondeterministic in Go, so we model the map as an
association list whose order is a parameter.  Go's `strings.ToLower` is
modelled character-wise (the entries of interest are ASCII), and
`strings.Contains` as contiguous-sublist containment on the character list. -/

/-- Character-wise lowercasing (model of `strings.ToLower`). -/
def lcString (s : String) : String := ⟨s.data.map Char.toLower⟩

/-- `strings.TrimPrefix(query, "gp ")`: drop one leading `"gp "` if present. -/
def stripGpQuery (s : String) : String :=
  match s.data with
  | 'g' :: 'p' :: ' ' :: rest => ⟨rest⟩
  | _ => s

/-- The key the search callback matches against: the query with a leading
`"gp "` stripped, lowercased. -/
def matchKey (query : String) : String := lcString (stripGpQuery query)

/-- Whether `pat` occurs as a contiguous block at the head of `l`. -/
def headMatch : List Char → List Char → Bool
  | [], _ => true
  | _ :: _, [] => false
  | c :: cs, h :: hs => c = h && headMatch cs hs

/-- Whether `pat` occurs as a contiguous block anywhere in `l`. -/
def subMatch (pat : List Char) : List Char → Bool
  | [] => pat.isEmpty
  | h :: hs => headMatch pat (h :: hs) || subMatch pat hs

/-- Model of `strings.Contains(s, sub)`. -/
def strContains (s sub : String) : Bool := subMatch sub.data s.data

/-- Go map lookup `allEntries[q]` on the association-list model
(keys are unique in a Go map, so first match is the match). -/
def lookupEntry : List (String × String) → String → Option String
  | [], _ => none
  | (k, v) :: es, q => if k = q then some v else lookupEntry es q

/-- The `SearchResult` the callback builds for a matching entry. -/
def mkAppRes (orig : String) : SearchResult :=
  ⟨orig, "Copy password to clipboard", "dialog-password"⟩

/-- The substring-matching scan of the launcher-based `OnSearch`
(src/main.go): skip the entry equal to the key (already handled by the
exact-match branch), append entries whose lowercased form contains the key
(or all entries for the empty key), and stop once `count` reaches
`maxResults`.  Entries are `(lower, original)` pairs in iteration order. -/
def scanEntries (q : String) : List (String × String) → Nat → List SearchResult
  | [], _ => []
  | (lower, original) :: es, count =>
    if lower = q then scanEntries q es count
    else if q = "" || strContains lower q then
      if maxResults ≤ count + 1 then [mkAppRes original]
      else mkAppRes original :: scanEntries q es (count + 1)
    else scanEntries q es count

/-- The launcher-based program's `OnSearch` callback, as the list of results
it appends in an uncancelled run: the exact match (if any) first, then the
substring scan. -/
def onSearchApp (entries : List (String × String)) (query : String) : List SearchResult :=
  let q := matchKey query
  (match lookupEntry entries q with
   | some orig => [mkAppRes orig]
   | none => []) ++ scanEntries q entries 0

/-- The launcher-based program's search provider (its `OnSearch` never
returns an error when it runs uncancelled). -/
def appProvider (entries : List (String × String)) : Provider :=
  fun query => (onSearchApp entries query, false)

/-- The inline match loop of the older engine in `main.go` (lines 210-231):
entries are `(original, lower)` pairs; matching entries are accumulated in
`matched` and the loop breaks once `len(matched) >= maxResults`. -/
def oldScan (q : String) : List (String × String) → List String → List String
  | [], matched => matched
  | (original, lower) :: es, matched =>
    if q = "" || strContains lower q then
      let m := matched ++ [original]
      if maxResults ≤ m.length then m else oldScan q es m
    else oldScan q es matched

/-- The older inline engine's full result list for a raw query. -/
def oldMatches (entries : List (String × String)) (query : String) : List String :=
  oldScan (matchKey query) entries []

/-! ## Config validation (`launcher.Config.LoadConfig` and `launcher.Run`) -/

/-- Model of `launcher.Config`: nilable streams/logger and the two required
callbacks. -/
structure GoConfig where
  stdinGiven : Bool
  stdoutGiven : Bool
  loggerGiven : Bool
  onSearch : Option Provider
  onActivate : Option (String → Bool)

/-- What a successful `LoadConfig` hands to `Run`: the two callbacks and
whether each stream was defaulted to the OS stream. -/
structure LoadedConfig where
  onSearch : Provider
  onActivate : String → Bool
  stdinDefaulted : Bool
  stdoutDefaulted : Bool

/-- `(*Config).LoadConfig`: nil-receiver check, then the two required-callback
checks, in source order; on success the streams are defaulted. -/
def loadConfig : Option GoConfig → Except String LoadedConfig
  | none => .error "config is nil"
  | some c =>
    match c.onSearch with
    | none => .error "config OnSearch callback is required"
    | some s =>
      match c.onActivate with
      | none => .error "config OnActivate callback is required"
      | some a => .ok ⟨s, a, !c.stdinGiven, !c.stdoutGiven⟩

/-- `launcher.Run`: validate the config; on error, log it and return before
spawning the stdin reader or writing anything; otherwise run the engine. -/
def runLauncher (c : GoConfig) (input : List Cmd) (ks : List Nat) : List Ev :=
  match loadConfig (some c) with
  | .error _ => [.logged]
  | .ok lc => runCmds lc.onSearch lc.onActivate ⟨[], none⟩ input ks

/-! ## Basic lemmas about the observation functions -/

@[simp] theorem outputs_nil : outputs [] = [] := rfl

@[simp] theorem outputs_cons_emit (r : Reply) (evs : List Ev) :
    outputs (.emit r :: evs) = r :: outputs evs := rfl

@[simp] theorem outputs_cons_searchCall (q : String) (evs : List Ev) :
    outputs (.searchCall q :: evs) = outputs evs := rfl

@[simp] theorem outputs_cons_activateCall (l : String) (e : Bool) (evs : List Ev) :
    outputs (.activateCall l e :: evs) = outputs evs := rfl

@[simp] theorem outputs_cons_logged (evs : List Ev) :
    outputs (.logged :: evs) = outputs evs := rfl

@[simp] theorem outputs_append (a b : List Ev) :
    outputs (a ++ b) = outputs a ++ outputs b := by
  induction a with
  | nil => rfl
  | cons e a ih => cases e <;> simp [ih]

@[simp] theorem activationCalls_nil : activationCalls [] = [] := rfl

@[simp] theorem activationCalls_cons_emit (r : Reply) (evs : List Ev) :
    activationCalls (.emit r :: evs) = activationCalls evs := rfl

@[simp] theorem activationCalls_cons_searchCall (q : String) (evs : List Ev) :
    activationCalls (.searchCall q :: evs) = activationCalls evs := rfl

@[simp] theorem activationCalls_cons_activateCall (l : String) (e : Bool) (evs : List Ev) :
    activationCalls (.activateCall l e :: evs) = l :: activationCalls evs := rfl

@[simp] theorem activationCalls_cons_logged (evs : List Ev) :
    activationCalls (.logged :: evs) = activationCalls evs := rfl

@[simp] theorem activationCalls_append (a b : List Ev) :
    activationCalls (a ++ b) = activationCalls a ++ activationCalls b := by
  induction a with
  | nil => rfl
  | cons e a ih => cases e <;> simp [ih]

@[simp] theorem searchCalls_nil : searchCalls [] = [] := rfl

@[simp] theorem searchCalls_cons_emit (r : Reply) (evs : List Ev) :
    searchCalls (.emit r :: evs) = searchCalls evs := rfl

@[simp] theorem searchCalls_cons_searchCall (q : String) (evs : List Ev) :
    searchCalls (.searchCall q :: evs) = q :: searchCalls evs := rfl

@[simp] theorem searchCalls_cons_activateCall (l : String) (e : Bool) (evs : List Ev) :
    searchCalls (.activateCall l e :: evs) = searchCalls evs := rfl

@[simp] theorem searchCalls_cons_logged (evs : List Ev) :
    searchCalls (.logged :: evs) = searchCalls evs := rfl

@[simp] theorem searchCalls_append (a b : List Ev) :
    searchCalls (a ++ b) = searchCalls a ++ searchCalls b := by
  induction a with
  | nil => rfl
  | cons e a ih => cases e <;> simp [ih]

@[simp] theorem appendIds_nil : appendIds [] = [] := rfl

@[simp] theorem appendIds_cons_append (i : Nat) (n d : String) (ic : Option String) (evs : List Ev) :
    appendIds (.emit (.Append i n d ic) :: evs) = i :: appendIds evs := rfl

@[simp] theorem appendIds_cons_clear (evs : List Ev) :
    appendIds (.emit .Clear :: evs) = appendIds evs := rfl

@[simp] theorem appendIds_cons_finished (evs : List Ev) :
    appendIds (.emit .Finished :: evs) = appendIds evs := rfl

@[simp] theorem appendIds_cons_close (evs : List Ev) :
    appendIds (.emit .Close :: evs) = appendIds evs := rfl

@[simp] theorem appendIds_cons_searchCall (q : String) (evs : List Ev) :
    appendIds (.searchCall q :: evs) = appendIds evs := rfl

@[simp] theorem appendIds_cons_activateCall (l : String) (e : Bool) (evs : List Ev) :
    appendIds (.activateCall l e :: evs) = appendIds evs := rfl

@[simp] theorem appendIds_cons_logged (evs : List Ev) :
    appendIds (.logged :: evs) = appendIds evs := rfl

@[simp] theorem appendIds_append (a b : List Ev) :
    appendIds (a ++ b) = appendIds a ++ appendIds b := by
  induction a with
  | nil => rfl
  | cons e a ih =>
    cases e with
    | emit r => cases r <;> simp [ih]
    | searchCall q => simp [ih]
    | activateCall l er => simp [ih]
    | logged => simp [ih]

@[simp] theorem appendNames_nil : appendNames [] = [] := rfl

@[simp] theorem appendNames_cons_append (i : Nat) (n d : String) (ic : Option String) (evs : List Ev) :
    appendNames (.emit (.Append i n d ic) :: evs) = n :: appendNames evs := rfl

@[simp] theorem appendNames_cons_clear (evs : List Ev) :
    appendNames (.emit .Clear :: evs) = appendNames evs := rfl

@[simp] theorem appendNames_cons_finished (evs : List Ev) :
    appendNames (.emit .Finished :: evs) = appendNames evs := rfl

@[simp] theorem appendNames_cons_close (evs : List Ev) :
    appendNames (.emit .Close :: evs) = appendNames evs := rfl

@[simp] theorem appendNames_cons_searchCall (q : String) (evs : List Ev) :
    appendNames (.searchCall q :: evs) = appendNames evs := rfl

@[simp] theorem appendNames_cons_activateCall (l : String) (e : Bool) (evs : List Ev) :
    appendNames (.activateCall l e :: evs) = appendNames evs := rfl

@[simp] theorem appendNames_cons_logged (evs : List Ev) :
    appendNames (.logged :: evs) = appendNames evs := rfl

@[simp] theorem appendNames_append (a b : List Ev) :
    appendNames (a ++ b) = appendNames a ++ appendNames b := by
  induction a with
  | nil => rfl
  | cons e a ih =>
    cases e with
    | emit r => cases r <;> simp [ih]
    | searchCall q => simp [ih]
    | activateCall l er => simp [ih]
    | logged => simp [ih]

/-! ## Structure of one search task's emissions -/

theorem appendEvs_ids (rs : List SearchResult) :
    ∀ m : List String, appendIds (appendEvs m rs) = List.range' m.length rs.length := by
  induction rs with
  | nil => intro m; simp [appendEvs]
  | cons r rs ih =>
    intro m
    simp [appendEvs, ih (m ++ [r.name]), List.range'_succ]

theorem appendEvs_names (rs : List SearchResult) :
    ∀ m : List String, appendNames (appendEvs m rs) = rs.map (·.name) := by
  induction rs with
  | nil => intro m; simp [appendEvs]
  | cons r rs ih => intro m; simp [appendEvs, ih (m ++ [r.name])]

theorem appendEvs_outputs_mem (rs : List SearchResult) :
    ∀ (m : List String) (r : Reply), r ∈ outputs (appendEvs m rs) →
      ∃ i n d ic, r = Reply.Append i n d ic := by
  induction rs with
  | nil => intro m r h; simp [appendEvs] at h
  | cons x rs ih =>
    intro m r h
    simp only [appendEvs, outputs_cons_emit, List.mem_cons] at h
    rcases h with h | h
    · exact ⟨m.length, x.name, x.description, iconOf x, h⟩
    · exact ih (m ++ [x.name]) r h

theorem appendEvs_outputs_count_finished (rs : List SearchResult) (m : List String) :
    (outputs (appendEvs m rs)).count Reply.Finished = 0 := by
  rw [List.count_eq_zero]
  intro h
  rcases appendEvs_outputs_mem rs m _ h with ⟨i, n, d, ic, h'⟩
  cases h'

theorem appendEvs_outputs_count_clear (rs : List SearchResult) (m : List String) :
    (outputs (appendEvs m rs)).count Reply.Clear = 0 := by
  rw [List.count_eq_zero]
  intro h
  rcases appendEvs_outputs_mem rs m _ h with ⟨i, n, d, ic, h'⟩
  cases h'

theorem appendEvs_outputs_count_close (rs : List SearchResult) (m : List String) :
    (outputs (appendEvs m rs)).count Reply.Close = 0 := by
  rw [List.count_eq_zero]
  intro h
  rcases appendEvs_outputs_mem rs m _ h with ⟨i, n, d, ic, h'⟩
  cases h'

theorem appendEvs_activationCalls (rs : List SearchResult) :
    ∀ m : List String, activationCalls (appendEvs m rs) = [] := by
  induction rs with
  | nil => intro m; simp [appendEvs]
  | cons r rs ih => intro m; simp [appendEvs, ih (m ++ [r.name])]

theorem appendEvs_searchCalls (rs : List SearchResult) :
    ∀ m : List String, searchCalls (appendEvs m rs) = [] := by
  induction rs with
  | nil => intro m; simp [appendEvs]
  | cons r rs ih => intro m; simp [appendEvs, ih (m ++ [r.name])]

@[simp] theorem outputs_err_log (b : Bool) :
    outputs (if b then [Ev.logged] else []) = [] := by cases b <;> rfl

@[simp] theorem activationCalls_err_log (b : Bool) :
    activationCalls (if b then [Ev.logged] else []) = [] := by cases b <;> rfl

@[simp] theorem searchCalls_err_log (b : Bool) :
    searchCalls (if b then [Ev.logged] else []) = [] := by cases b <;> rfl

@[simp] theorem appendIds_err_log (b : Bool) :
    appendIds (if b then [Ev.logged] else []) = [] := by cases b <;> rfl

@[simp] theorem appendNames_err_log (b : Bool) :
    appendNames (if b then [Ev.logged] else []) = [] := by cases b <;> rfl

/-- The output lines of one search task: `Clear`, the appends of the emitted
prefix, and a final `Finished`. -/
theorem outputs_blockEvs (prov : Provider) (q : String) (k : Nat) :
    outputs (blockEvs prov q k)
      = Reply.Clear :: (outputs (appendEvs [] (((prov q).1).take k)) ++ [Reply.Finished]) := by
  simp [blockEvs]

theorem blockEvs_count_finished (prov : Provider) (q : String) (k : Nat) :
    (outputs (blockEvs prov q k)).count Reply.Finished = 1 := by
  rw [outputs_blockEvs]
  simp [List.count_cons, List.count_append, appendEvs_outputs_count_finished]

theorem blockEvs_count_clear (prov : Provider) (q : String) (k : Nat) :
    (outputs (blockEvs prov q k)).count Reply.Clear = 1 := by
  rw [outputs_blockEvs]
  simp [List.count_cons, List.count_append, appendEvs_outputs_count_clear]

theorem blockEvs_count_close (prov : Provider) (q : String) (k : Nat) :
    (outputs (blockEvs prov q k)).count Reply.Close = 0 := by
  rw [outputs_blockEvs]
  simp [List.count_cons, List.count_append, appendEvs_outputs_count_close]

theorem blockEvs_activationCalls (prov : Provider) (q : String) (k : Nat) :
    activationCalls (blockEvs prov q k) = [] := by
  simp [blockEvs, appendEvs_activationCalls]

theorem blockEvs_searchCalls (prov : Provider) (q : String) (k : Nat) :
    searchCalls (blockEvs prov q k) = [q] := by
  simp [blockEvs, appendEvs_searchCalls]

theorem blockEvs_appendIds (prov : Provider) (q : String) (k : Nat) :
    appendIds (blockEvs prov q k) = List.range (((prov q).1).take k).length := by
  simp [blockEvs, appendEvs_ids, List.range_eq_range']

theorem blockEvs_appendNames (prov : Provider) (q : String) (k : Nat) :
    appendNames (blockEvs prov q k) = (((prov q).1).take k).map (·.name) := by
  simp [blockEvs, appendEvs_names]

theorem blockEvs_head_clear (prov : Provider) (q : String) (k : Nat) :
    (outputs (blockEvs prov q k)).head? = some Reply.Clear := by
  rw [outputs_blockEvs]; rfl

theorem blockEvs_last_finished (prov : Provider) (q : String) (k : Nat) :
    (outputs (blockEvs prov q k)).getLast? = some Reply.Finished := by
  rw [outputs_blockEvs]
  rw [show Reply.Clear :: (outputs (appendEvs [] (((prov q).1).take k)) ++ [Reply.Finished])
      = (Reply.Clear :: outputs (appendEvs [] (((prov q).1).take k))) ++ [Reply.Finished] by simp]
  exact List.getLast?_concat _

/-! ## Rewriting lemmas for the command loop -/

theorem flushK_none {prov : Provider} {st : EngState} (h : st.pending = none) (k : Nat) :
    flushK prov st k = ([], st) := by
  simp [flushK, h]

theorem flushK_some {prov : Provider} {st : EngState} {q : String}
    (h : st.pending = some q) (k : Nat) :
    flushK prov st k = (blockEvs prov q k, flushedState prov q k) := by
  simp [flushK, h]

theorem searchFull_some {prov : Provider} {st : EngState} {q : String}
    (h : st.pending = some q) :
    searchFull prov st = ((prov q).1).length := by
  simp [searchFull, h]

@[simp] theorem flushedState_pending (prov : Provider) (q : String) (k : Nat) :
    (flushedState prov q k).pending = none := rfl

@[simp] theorem flushedState_lastResults (prov : Provider) (q : String) (k : Nat) :
    (flushedState prov q k).lastResults = (((prov q).1).take k).map (·.name) := rfl

theorem stepCmd_malformed (prov : Provider) (act : String → Bool) (st : EngState) (k : Nat) :
    stepCmd prov act st .Malformed k = ([.logged], st, true) := rfl

theorem stepCmd_unhandled (prov : Provider) (act : String → Bool) (st : EngState) (k : Nat) :
    stepCmd prov act st .Unhandled k = ([.logged], st, true) := rfl

theorem stepCmd_interrupt_none (prov : Provider) (act : String → Bool) {st : EngState}
    (h : st.pending = none) (k : Nat) :
    stepCmd prov act st .Interrupt k = ([.emit .Finished], st, true) := by
  simp [stepCmd, h, flushK_none h]

theorem stepCmd_interrupt_some (prov : Provider) (act : String → Bool) {st : EngState}
    {q : String} (h : st.pending = some q) (k : Nat) :
    stepCmd prov act st .Interrupt k = (blockEvs prov q k, flushedState prov q k, true) := by
  simp [stepCmd, h, flushK_some h]

theorem stepCmd_search (prov : Provider) (act : String → Bool) (st : EngState)
    (q' : String) (k : Nat) :
    stepCmd prov act st (.Search q') k
      = ((flushK prov st k).1, { (flushK prov st k).2 with pending := some q' }, true) := rfl

theorem stepCmd_exit (prov : Provider) (act : String → Bool) (st : EngState) (k : Nat) :
    stepCmd prov act st .Exit k
      = ((flushK prov st k).1 ++ [.emit .Finished], (flushK prov st k).2, false) := rfl

theorem stepCmd_activate_lt (prov : Provider) (act : String → Bool) (st : EngState)
    (i k : Nat) (h : i < (flushK prov st k).2.lastResults.length) :
    stepCmd prov act st (.Activate i) k
      = ((flushK prov st k).1
          ++ [.activateCall ((flushK prov st k).2.lastResults.get ⟨i, h⟩)
                (act ((flushK prov st k).2.lastResults.get ⟨i, h⟩))]
          ++ (if act ((flushK prov st k).2.lastResults.get ⟨i, h⟩) then [.logged] else [])
          ++ [.emit .Close],
         (flushK prov st k).2, true) := by
  simp [stepCmd, h]

theorem stepCmd_activate_ge (prov : Provider) (act : String → Bool) (st : EngState)
    (i k : Nat) (h : (flushK prov st k).2.lastResults.length ≤ i) :
    stepCmd prov act st (.Activate i) k
      = ((flushK prov st k).1 ++ [.logged, .emit .Close], (flushK prov st k).2, true) := by
  have h' : ¬ i < (flushK prov st k).2.lastResults.length := by omega
  simp [stepCmd, h']

/-- Every command but `Exit` leaves the loop running. -/
theorem stepCmd_cont (prov : Provider) (act : String → Bool) (st : EngState) (k : Nat) :
    ∀ c : Cmd, c ≠ .Exit → (stepCmd prov act st c k).2.2 = true := by
  intro c hc
  cases c with
  | Exit => exact absurd rfl hc
  | Activate i =>
    by_cases h : i < (flushK prov st k).2.lastResults.length
    · rw [stepCmd_activate_lt prov act st i k h]
    · rw [stepCmd_activate_ge prov act st i k (by omega)]
  | Search q => rfl
  | Interrupt => rfl
  | Unhandled => rfl
  | Malformed => rfl

theorem procCmds_nil (prov : Provider) (act : String → Bool) (st : EngState) (ks : List Nat) :
    procCmds prov act st [] ks = ([], st, true) := rfl

theorem procCmds_cons_of {prov : Provider} {act : String → Bool} {st st1 st2 : EngState}
    {c : Cmd} {cs : List Cmd} {ks : List Nat} {evs e2 : List Ev} {b : Bool}
    (h : stepCmd prov act st c (ks.headD 0) = (evs, st1, true))
    (hr : procCmds prov act st1 cs ks.tail = (e2, st2, b)) :
    procCmds prov act st (c :: cs) ks = (evs ++ e2, st2, b) := by
  simp only [procCmds, h, hr]

theorem procCmds_cons_stop {prov : Provider} {act : String → Bool} {st st1 : EngState}
    {c : Cmd} {cs : List Cmd} {ks : List Nat} {evs : List Ev}
    (h : stepCmd prov act st c (ks.headD 0) = (evs, st1, false)) :
    procCmds prov act st (c :: cs) ks = (evs, st1, false) := by
  simp only [procCmds, h]

theorem runCmds_nil (prov : Provider) (act : String → Bool) (st : EngState) (ks : List Nat) :
    runCmds prov act st [] ks = (flushK prov st (searchFull prov st)).1 := by
  simp [runCmds, procCmds]

theorem runCmds_cons_true {prov : Provider} {act : String → Bool} {st st1 : EngState}
    {c : Cmd} {cs : List Cmd} {ks : List Nat} {evs : List Ev}
    (h : stepCmd prov act st c (ks.headD 0) = (evs, st1, true)) :
    runCmds prov act st (c :: cs) ks = evs ++ runCmds prov act st1 cs ks.tail := by
  rcases hr : procCmds prov act st1 cs ks.tail with ⟨e2, st2, b⟩
  cases b <;> simp [runCmds, procCmds_cons_of h hr, hr]

theorem runCmds_cons_stop {prov : Provider} {act : String → Bool} {st st1 : EngState}
    {c : Cmd} {cs : List Cmd} {ks : List Nat} {evs : List Ev}
    (h : stepCmd prov act st c (ks.headD 0) = (evs, st1, false)) :
    runCmds prov act st (c :: cs) ks = evs := by
  simp [runCmds, procCmds_cons_stop h]

/-! ## Trace lemmas -/

/-- Processing a prefix that contains no `Exit` leaves the loop running. -/
theorem procCmds_cont (prov : Provider) (act : String → Bool) :
    ∀ (cs : List Cmd) (st : EngState) (ks : List Nat), Cmd.Exit ∉ cs →
      (procCmds prov act st cs ks).2.2 = true := by
  intro cs
  induction cs with
  | nil => intro st ks _; rfl
  | cons c cs ih =>
    intro st ks hno
    have hc : c ≠ Cmd.Exit := fun h => hno (by simp [h])
    have hcs : Cmd.Exit ∉ cs := fun h => hno (List.mem_cons_of_mem _ h)
    rcases hs : stepCmd prov act st c (ks.headD 0) with ⟨evs, st1, b⟩
    have hb : b = true := by
      have := stepCmd_cont prov act st (ks.headD 0) c hc
      rw [hs] at this; exact this
    subst hb
    rcases hr : procCmds prov act st1 cs ks.tail with ⟨e2, st2, b2⟩
    rw [procCmds_cons_of hs hr]
    have := ih st1 ks.tail hcs
    rw [hr] at this
    exact this

/-- A run over `pre ++ rest` with no `Exit` in `pre` splits at the boundary. -/
theorem runCmds_append_of_no_exit (prov : Provider) (act : String → Bool) :
    ∀ (pre rest : List Cmd) (st : EngState) (ks : List Nat), Cmd.Exit ∉ pre →
      runCmds prov act st (pre ++ rest) ks
        = (procCmds prov act st pre ks).1
          ++ runCmds prov act (procCmds prov act st pre ks).2.1 rest (ks.drop pre.length) := by
  intro pre
  induction pre with
  | nil => intro rest st ks _; simp [procCmds_nil]
  | cons c pre ih =>
    intro rest st ks hno
    have hc : c ≠ Cmd.Exit := fun h => hno (by simp [h])
    have hpre : Cmd.Exit ∉ pre := fun h => hno (List.mem_cons_of_mem _ h)
    rcases hs : stepCmd prov act st c (ks.headD 0) with ⟨evs, st1, b⟩
    have hb : b = true := by
      have := stepCmd_cont prov act st (ks.headD 0) c hc
      rw [hs] at this; exact this
    subst hb
    rcases hr : procCmds prov act st1 pre ks.tail with ⟨e2, st2, b2⟩
    have hdrop : ks.tail.drop pre.length = ks.drop (pre.length + 1) := by
      rw [← List.drop_one, List.drop_drop, Nat.add_comm]
    calc runCmds prov act st ((c :: pre) ++ rest) ks
        = evs ++ runCmds prov act st1 (pre ++ rest) ks.tail := runCmds_cons_true hs
      _ = evs ++ ((procCmds prov act st1 pre ks.tail).1
            ++ runCmds prov act (procCmds prov act st1 pre ks.tail).2.1 rest
                 (ks.tail.drop pre.length)) := by rw [ih rest st1 ks.tail hpre]
      _ = (procCmds prov act st (c :: pre) ks).1
            ++ runCmds prov act (procCmds prov act st (c :: pre) ks).2.1 rest
                 (ks.drop (c :: pre).length) := by
            rw [procCmds_cons_of hs hr, hr]
            simp [hdrop]

/-- The `Activate` branch, without the dependent in-range split: it first
joins any in-flight search, then emits some events whose only output line is
`"Close"`, invoking the handler exactly on the in-range label. -/
theorem stepCmd_activate_exists (prov : Provider) (act : String → Bool) (st : EngState)
    (i k : Nat) :
    ∃ tl, stepCmd prov act st (.Activate i) k = ((flushK prov st k).1 ++ tl, (flushK prov st k).2, true)
      ∧ outputs tl = [Reply.Close]
      ∧ (∀ h : i < (flushK prov st k).2.lastResults.length,
          activationCalls tl = [(flushK prov st k).2.lastResults.get ⟨i, h⟩])
      ∧ ((flushK prov st k).2.lastResults.length ≤ i → activationCalls tl = []) := by
  by_cases hi : i < (flushK prov st k).2.lastResults.length
  · refine ⟨[.activateCall ((flushK prov st k).2.lastResults.get ⟨i, hi⟩)
        (act ((flushK prov st k).2.lastResults.get ⟨i, hi⟩))]
      ++ (if act ((flushK prov st k).2.lastResults.get ⟨i, hi⟩) then [.logged] else [])
      ++ [.emit .Close], ?_, ?_, ?_, ?_⟩
    · rw [stepCmd_activate_lt prov act st i k hi]; simp
    · simp
    · intro h; simp
    · intro h; omega
  · refine ⟨[.logged, .emit .Close], ?_, ?_, ?_, ?_⟩
    · rw [stepCmd_activate_ge prov act st i k (by omega)]
    · rfl
    · intro h; omega
    · intro h; rfl

/-- If a search task is alive, the very next output lines of the run are that
search's own contiguous `Clear … Finished` block, for some cancel point. -/
theorem pending_block_first (prov : Provider) (act : String → Bool) :
    ∀ (cs : List Cmd) (st : EngState) (ks : List Nat) (q : String), st.pending = some q →
      ∃ k rest, outputs (runCmds prov act st cs ks)
        = outputs (blockEvs prov q k) ++ rest := by
  intro cs
  induction cs with
  | nil =>
    intro st ks q h
    refine ⟨((prov q).1).length, [], ?_⟩
    rw [runCmds_nil, searchFull_some h, flushK_some h]
    simp
  | cons c cs ih =>
    intro st ks q h
    cases c with
    | Malformed =>
      rcases ih st ks.tail q h with ⟨k, rest, hk⟩
      exact ⟨k, rest, by rw [runCmds_cons_true (stepCmd_malformed prov act st (ks.headD 0))]; simpa⟩
    | Unhandled =>
      rcases ih st ks.tail q h with ⟨k, rest, hk⟩
      exact ⟨k, rest, by rw [runCmds_cons_true (stepCmd_unhandled prov act st (ks.headD 0))]; simpa⟩
    | Interrupt =>
      refine ⟨ks.headD 0,
        outputs (runCmds prov act (flushedState prov q (ks.headD 0)) cs ks.tail), ?_⟩
      rw [runCmds_cons_true (stepCmd_interrupt_some prov act h (ks.headD 0))]
      simp
    | Search q' =>
      refine ⟨ks.headD 0,
        outputs (runCmds prov act
          { (flushK prov st (ks.headD 0)).2 with pending := some q' } cs ks.tail), ?_⟩
      rw [runCmds_cons_true (stepCmd_search prov act st q' (ks.headD 0))]
      rw [flushK_some h]
      simp
    | Exit =>
      refine ⟨ks.headD 0, [Reply.Finished], ?_⟩
      rw [runCmds_cons_stop (stepCmd_exit prov act st (ks.headD 0))]
      rw [flushK_some h]
      simp
    | Activate i =>
      rcases stepCmd_activate_exists prov act st i (ks.headD 0) with ⟨tl, hstep, htl, -, -⟩
      refine ⟨ks.headD 0, Reply.Close ::
        outputs (runCmds prov act (flushK prov st (ks.headD 0)).2 cs ks.tail), ?_⟩
      rw [runCmds_cons_true hstep]
      rw [flushK_some h]
      simp [flushK_some h, htl]

/-- A `Search` command that is reached (no earlier `Exit`) always contributes
one contiguous `Clear … Finished` block to the output, for some cancel
point. -/
theorem search_block_appears (prov : Provider) (act : String → Bool)
    (q2 : String) (post : List Cmd) :
    ∀ (mid : List Cmd) (st : EngState) (ks : List Nat), Cmd.Exit ∉ mid →
      ∃ o2 k2 o3, outputs (runCmds prov act st (mid ++ .Search q2 :: post) ks)
        = o2 ++ outputs (blockEvs prov q2 k2) ++ o3 := by
  intro mid
  induction mid with
  | nil =>
    intro st ks _
    rw [List.nil_append, runCmds_cons_true (stepCmd_search prov act st q2 (ks.headD 0))]
    have hp : ({ (flushK prov st (ks.headD 0)).2 with pending := some q2 } : EngState).pending
        = some q2 := rfl
    rcases pending_block_first prov act post _ ks.tail q2 hp with ⟨k, rest, hk⟩
    refine ⟨outputs (flushK prov st (ks.headD 0)).1, k, rest, ?_⟩
    rw [outputs_append, hk, List.append_assoc]
  | cons c mid ih =>
    intro st ks hex
    have hc : c ≠ Cmd.Exit := fun h => hex (by simp [h])
    have hex' : Cmd.Exit ∉ mid := fun h => hex (List.mem_cons_of_mem _ h)
    rcases hs : stepCmd prov act st c (ks.headD 0) with ⟨evs, st1, b⟩
    have hb : b = true := by
      have := stepCmd_cont prov act st (ks.headD 0) c hc
      rw [hs] at this; exact this
    subst hb
    rw [List.cons_append, runCmds_cons_true hs]
    rcases ih st1 ks.tail hex' with ⟨o2, k2, o3, hk⟩
    exact ⟨outputs evs ++ o2, k2, o3, by simp [hk]⟩

/-- Two reached `Search` commands with no `Interrupt`/`Exit` between them
contribute two disjoint, ordered `Clear … Finished` blocks: the first search's
block (hence its `Finished`) is emitted wholly before the second search's
block (hence its `Clear`). -/
theorem two_search_blocks (prov : Provider) (act : String → Bool)
    (q2 : String) (post : List Cmd) :
    ∀ (mid : List Cmd) (st : EngState) (ks : List Nat) (q1 : String),
      st.pending = some q1 → Cmd.Exit ∉ mid → Cmd.Interrupt ∉ mid →
      ∃ k1 o2 k2 o3, outputs (runCmds prov act st (mid ++ .Search q2 :: post) ks)
        = outputs (blockEvs prov q1 k1) ++ o2 ++ outputs (blockEvs prov q2 k2) ++ o3 := by
  intro mid
  induction mid with
  | nil =>
    intro st ks q1 h _ _
    rw [List.nil_append, runCmds_cons_true (stepCmd_search prov act st q2 (ks.headD 0))]
    have hp : ({ (flushK prov st (ks.headD 0)).2 with pending := some q2 } : EngState).pending
        = some q2 := rfl
    rcases pending_block_first prov act post _ ks.tail q2 hp with ⟨k, rest, hk⟩
    refine ⟨ks.headD 0, [], k, rest, ?_⟩
    rw [outputs_append, hk, flushK_some h]
    simp
  | cons c mid ih =>
    intro st ks q1 h hex hint
    have hex' : Cmd.Exit ∉ mid := fun hm => hex (List.mem_cons_of_mem _ hm)
    have hint' : Cmd.Interrupt ∉ mid := fun hm => hint (List.mem_cons_of_mem _ hm)
    cases c with
    | Exit => exact absurd (List.mem_cons_self _ _) hex
    | Interrupt => exact absurd (List.mem_cons_self _ _) hint
    | Malformed =>
      rw [List.cons_append, runCmds_cons_true (stepCmd_malformed prov act st (ks.headD 0))]
      rcases ih st ks.tail q1 h hex' hint' with ⟨k1, o2, k2, o3, hk⟩
      exact ⟨k1, o2, k2, o3, by simpa using hk⟩
    | Unhandled =>
      rw [List.cons_append, runCmds_cons_true (stepCmd_unhandled prov act st (ks.headD 0))]
      rcases ih st ks.tail q1 h hex' hint' with ⟨k1, o2, k2, o3, hk⟩
      exact ⟨k1, o2, k2, o3, by simpa using hk⟩
    | Search q' =>
      rw [List.cons_append, runCmds_cons_true (stepCmd_search prov act st q' (ks.headD 0))]
      have hp : ({ (flushK prov st (ks.headD 0)).2 with pending := some q' } : EngState).pending
          = some q' := rfl
      rcases ih _ ks.tail q' hp hex' hint' with ⟨k1', o2', k2, o3, hk⟩
      refine ⟨ks.headD 0, outputs (blockEvs prov q' k1') ++ o2', k2, o3, ?_⟩
      rw [outputs_append, hk, flushK_some h]
      simp
    | Activate i =>
      rcases stepCmd_activate_exists prov act st i (ks.headD 0) with ⟨tl, hstep, htl, -, -⟩
      rw [List.cons_append, runCmds_cons_true hstep]
      rcases search_block_appears prov act q2 post mid (flushK prov st (ks.headD 0)).2
        ks.tail hex' with ⟨oB, k2, o3, hk⟩
      refine ⟨ks.headD 0, outputs tl ++ oB, k2, o3, ?_⟩
      rw [outputs_append, hk, outputs_append, htl, flushK_some h]
      simp

/-! ## Observation shorthands for run prefixes -/

/-- Engine state after processing a prefix of the input. -/
def preState (prov : Provider) (act : String → Bool) (pre : List Cmd) (ks : List Nat) : EngState :=
  (procCmds prov act ⟨[], none⟩ pre ks).2.1

/-- Events emitted while processing a prefix of the input. -/
def preEvs (prov : Provider) (act : String → Bool) (pre : List Cmd) (ks : List Nat) : List Ev :=
  (procCmds prov act ⟨[], none⟩ pre ks).1

/-- The cancel-point oracle entry consumed by the command right after `pre`. -/
def oracleAt (pre : List Cmd) (ks : List Nat) : Nat := (ks.drop pre.length).headD 0

/-! ## Claim theorems -/

/-- Claim C1: for every input trace, each `Interrupt` command resolves to
exactly one `Finished` line.  If a search task is active when the `Interrupt`
is processed, the engine cancels it and the events of the interrupt step are
exactly the cancelled task's own block (which contains exactly one
`Finished`); if no search task is active, the step emits exactly one direct
`Finished` — never zero and never two per `Interrupt`. -/
theorem interrupt_exactly_one_finished (prov : Provider) (act : String → Bool)
    (pre post : List Cmd) (ks : List Nat) (hpre : Cmd.Exit ∉ pre) :
    (outputs (stepCmd prov act (preState prov act pre ks) .Interrupt (oracleAt pre ks)).1).count
        Reply.Finished = 1
    ∧ outputs (runEngine prov act (pre ++ .Interrupt :: post) ks)
        = outputs (preEvs prov act pre ks)
          ++ outputs (stepCmd prov act (preState prov act pre ks) .Interrupt (oracleAt pre ks)).1
          ++ outputs (runCmds prov act
               (stepCmd prov act (preState prov act pre ks) .Interrupt (oracleAt pre ks)).2.1
               post (ks.drop (pre.length + 1)))
    ∧ ((preState prov act pre ks).pending = none →
        (stepCmd prov act (preState prov act pre ks) .Interrupt (oracleAt pre ks)).1
          = [.emit .Finished])
    ∧ (∀ q, (preState prov act pre ks).pending = some q →
        (stepCmd prov act (preState prov act pre ks) .Interrupt (oracleAt pre ks)).1
          = blockEvs prov q (oracleAt pre ks)) := by
  simp only [preState, preEvs, oracleAt]
  refine ⟨?_, ?_, ?_, ?_⟩
  · cases hp : (procCmds prov act ⟨[], none⟩ pre ks).2.1.pending with
    | none =>
      rw [stepCmd_interrupt_none prov act hp]
      simp [List.count_cons]
    | some q =>
      rw [stepCmd_interrupt_some prov act hp]
      exact blockEvs_count_finished prov q _
  · rcases hS : stepCmd prov act (procCmds prov act ⟨[], none⟩ pre ks).2.1 Cmd.Interrupt
        ((ks.drop pre.length).headD 0) with ⟨evs, stI, b⟩
    have hb : b = true := by
      have := stepCmd_cont prov act (procCmds prov act ⟨[], none⟩ pre ks).2.1
        ((ks.drop pre.length).headD 0) Cmd.Interrupt (by simp)
      rw [hS] at this; exact this
    subst hb
    have hdt : (ks.drop pre.length).tail = ks.drop (pre.length + 1) := by
      rw [← List.drop_one, List.drop_drop, Nat.add_comm]
    simp only [runEngine]
    rw [runCmds_append_of_no_exit prov act pre _ ⟨[], none⟩ ks hpre, runCmds_cons_true hS]
    simp [hdt, List.append_assoc]
  · intro hnone
    rw [stepCmd_interrupt_none prov act hnone]
  · intro q hq
    rw [stepCmd_interrupt_some prov act hq]

/-- Claim C2: at most one search task is alive at any instant (every command
path cancels-and-joins before its own work), so two `Search` commands with no
intervening `Interrupt`/`Exit` contribute two disjoint, ordered
`Clear … Finished` blocks: the first search's block — ending in its
`Finished` — appears on the output wholly before the second search's block —
starting with its `Clear`. -/
theorem single_inflight_search_ordered_blocks (prov : Provider) (act : String → Bool)
    (pre mid post : List Cmd) (q1 q2 : String) (ks : List Nat)
    (hpre : Cmd.Exit ∉ pre) (hmidE : Cmd.Exit ∉ mid) (hmidI : Cmd.Interrupt ∉ mid) :
    ∃ o1 k1 o2 k2 o3,
      outputs (runEngine prov act (pre ++ .Search q1 :: (mid ++ .Search q2 :: post)) ks)
        = o1 ++ outputs (blockEvs prov q1 k1) ++ o2 ++ outputs (blockEvs prov q2 k2) ++ o3
      ∧ (outputs (blockEvs prov q1 k1)).getLast? = some Reply.Finished
      ∧ (outputs (blockEvs prov q2 k2)).head? = some Reply.Clear := by
  set st1 := (procCmds prov act ⟨[], none⟩ pre ks).2.1 with hst1
  set ks1 := ks.drop pre.length with hks1
  have hsearch := stepCmd_search prov act st1 q1 (ks1.headD 0)
  have hp : ({ (flushK prov st1 (ks1.headD 0)).2 with pending := some q1 } : EngState).pending
      = some q1 := rfl
  rcases two_search_blocks prov act q2 post mid _ ks1.tail q1 hp hmidE hmidI
    with ⟨k1, o2, k2, o3, hk⟩
  refine ⟨outputs (procCmds prov act ⟨[], none⟩ pre ks).1
      ++ outputs (flushK prov st1 (ks1.headD 0)).1, k1, o2, k2, o3, ?_,
    blockEvs_last_finished prov q1 k1, blockEvs_head_clear prov q2 k2⟩
  simp only [runEngine]
  rw [runCmds_append_of_no_exit prov act pre _ ⟨[], none⟩ ks hpre, outputs_append,
    runCmds_cons_true hsearch, outputs_append, hk]
  simp [List.append_assoc]

/-- Claim C3: the replies attributable to one search (completed, failed or
cancelled at any point `k`) form one contiguous segment at the head of the
remaining output: one `Clear` first, then only `Append` lines, then exactly
one `Finished`, which is the last line of the segment. -/
theorem search_replies_clear_appends_finished (prov : Provider) (act : String → Bool)
    (st : EngState) (cs : List Cmd) (ks : List Nat) (q : String) (h : st.pending = some q) :
    ∃ k rest,
      outputs (runCmds prov act st cs ks)
        = (Reply.Clear :: (outputs (appendEvs [] (((prov q).1).take k)) ++ [Reply.Finished]))
          ++ rest
      ∧ (∀ r ∈ outputs (appendEvs [] (((prov q).1).take k)), ∃ i n d ic, r = Reply.Append i n d ic)
      ∧ (Reply.Clear :: (outputs (appendEvs [] (((prov q).1).take k)) ++ [Reply.Finished])).count
          Reply.Finished = 1
      ∧ (Reply.Clear :: (outputs (appendEvs [] (((prov q).1).take k)) ++ [Reply.Finished])).count
          Reply.Clear = 1 := by
  rcases pending_block_first prov act cs st ks q h with ⟨k, rest, hk⟩
  refine ⟨k, rest, ?_, ?_, ?_, ?_⟩
  · rw [hk, outputs_blockEvs]
  · exact fun r hr => appendEvs_outputs_mem _ _ r hr
  · have hc := blockEvs_count_finished prov q k
    rw [outputs_blockEvs] at hc; exact hc
  · have hc := blockEvs_count_clear prov q k
    rw [outputs_blockEvs] at hc; exact hc

/-- Claim C7: on the input trace consisting of the single line `"Exit"`, the
engine's complete event trace is exactly one `Finished` line — the command
loop stops, and neither the Search Provider nor the Activation Handler is
ever invoked. -/
theorem exit_trace_single_finished (prov : Provider) (act : String → Bool) (ks : List Nat) :
    runEngine prov act [.Exit] ks = [.emit .Finished]
    ∧ outputs (runEngine prov act [.Exit] ks) = [Reply.Finished]
    ∧ searchCalls (runEngine prov act [.Exit] ks) = []
    ∧ activationCalls (runEngine prov act [.Exit] ks) = []
    ∧ (procCmds prov act ⟨[], none⟩ [.Exit] ks).2.2 = false := by
  have h1 : runEngine prov act [.Exit] ks = [.emit .Finished] := by
    simp only [runEngine]
    rw [runCmds_cons_stop (stepCmd_exit prov act ⟨[], none⟩ (ks.headD 0))]
    rw [flushK_none rfl]
    rfl
  refine ⟨h1, by rw [h1]; rfl, by rw [h1]; rfl, by rw [h1]; rfl, ?_⟩
  rw [procCmds_cons_stop (stepCmd_exit prov act ⟨[], none⟩ (ks.headD 0))]

/-! ## Concrete fixtures for witnesses -/

/-- A concrete search result with an icon. -/
def resA : SearchResult := ⟨"Email/personal", "personal email", "dialog-password"⟩

/-- A concrete search result without an icon. -/
def resB : SearchResult := ⟨"Email/work", "work email", ""⟩

/-- A concrete provider that always succeeds with two results. -/
def provA : Provider := fun _ => ([resA, resB], false)

/-- A concrete handler that always succeeds. -/
def actA : String → Bool := fun _ => false

theorem interrupt_exactly_one_finished_witness :
    Cmd.Exit ∉ [Cmd.Search "q"]
    ∧ ((outputs (stepCmd provA actA (preState provA actA [Cmd.Search "q"] [])
            .Interrupt (oracleAt [Cmd.Search "q"] [])).1).count Reply.Finished = 1
      ∧ outputs (runEngine provA actA ([Cmd.Search "q"] ++ .Interrupt :: []) [])
          = outputs (preEvs provA actA [Cmd.Search "q"] [])
            ++ outputs (stepCmd provA actA (preState provA actA [Cmd.Search "q"] [])
                 .Interrupt (oracleAt [Cmd.Search "q"] [])).1
            ++ outputs (runCmds provA actA
                 (stepCmd provA actA (preState provA actA [Cmd.Search "q"] [])
                   .Interrupt (oracleAt [Cmd.Search "q"] [])).2.1
                 [] (List.drop ([Cmd.Search "q"].length + 1) []))
      ∧ ((preState provA actA [Cmd.Search "q"] []).pending = none →
          (stepCmd provA actA (preState provA actA [Cmd.Search "q"] [])
            .Interrupt (oracleAt [Cmd.Search "q"] [])).1 = [.emit .Finished])
      ∧ (∀ q, (preState provA actA [Cmd.Search "q"] []).pending = some q →
          (stepCmd provA actA (preState provA actA [Cmd.Search "q"] [])
            .Interrupt (oracleAt [Cmd.Search "q"] [])).1
            = blockEvs provA q (oracleAt [Cmd.Search "q"] []))) :=
  ⟨by decide, interrupt_exactly_one_finished provA actA [Cmd.Search "q"] [] [] (by decide)⟩

theorem single_inflight_search_ordered_blocks_witness :
    Cmd.Exit ∉ ([] : List Cmd) ∧ Cmd.Interrupt ∉ ([] : List Cmd)
    ∧ ∃ o1 k1 o2 k2 o3,
        outputs (runEngine provA actA ([] ++ .Search "a" :: ([] ++ .Search "b" :: [])) [])
          = o1 ++ outputs (blockEvs provA "a" k1) ++ o2 ++ outputs (blockEvs provA "b" k2) ++ o3
        ∧ (outputs (blockEvs provA "a" k1)).getLast? = some Reply.Finished
        ∧ (outputs (blockEvs provA "b" k2)).head? = some Reply.Clear :=
  ⟨by decide, by decide,
    single_inflight_search_ordered_blocks provA actA [] [] [] "a" "b" []
      (by decide) (by decide) (by decide)⟩

theorem search_replies_clear_appends_finished_witness :
    (⟨[], some "q"⟩ : EngState).pending = some "q"
    ∧ ∃ k rest,
        outputs (runCmds provA actA ⟨[], some "q"⟩ [] [])
          = (Reply.Clear :: (outputs (appendEvs [] (((provA "q").1).take k)) ++ [Reply.Finished]))
            ++ rest
        ∧ (∀ r ∈ outputs (appendEvs [] (((provA "q").1).take k)),
            ∃ i n d ic, r = Reply.Append i n d ic)
        ∧ (Reply.Clear :: (outputs (appendEvs [] (((provA "q").1).take k))
            ++ [Reply.Finished])).count Reply.Finished = 1
        ∧ (Reply.Clear :: (outputs (appendEvs [] (((provA "q").1).take k))
            ++ [Reply.Finished])).count Reply.Clear = 1 :=
  ⟨rfl, search_replies_clear_appends_finished provA actA ⟨[], some "q"⟩ [] [] "q" rfl⟩

/-- Claim C4: within one search (truncated at any cancel point `k`), the
`Append` ids are assigned strictly in emission order starting at 0 with no
gaps (the ids of the block are `[0, 1, …, n-1]` for its `n` appends), and the
search publishes to the Result Table exactly the names it actually emitted
before cancellation was observed. -/
theorem append_ids_sequential_partial_publish (prov : Provider) (q : String) (k : Nat)
    (lr : List String) :
    appendIds (blockEvs prov q k) = List.range (((prov q).1).take k).length
    ∧ appendNames (blockEvs prov q k) = (((prov q).1).take k).map (·.name)
    ∧ (flushK prov ⟨lr, some q⟩ k).2.lastResults = appendNames (blockEvs prov q k) := by
  refine ⟨blockEvs_appendIds prov q k, blockEvs_appendNames prov q k, ?_⟩
  have h : (⟨lr, some q⟩ : EngState).pending = some q := rfl
  rw [flushK_some h, blockEvs_appendNames, flushedState_lastResults]

/-- Claim C5: every `Activate(i)` first joins any in-flight search; then, with
`tbl` the current Result Table, the Activation Handler is invoked exactly once
with `tbl[i]` if `i` is in range, and not at all otherwise; in either case
(and for every handler outcome `act`) the step emits exactly one `Close` and
no other line beyond the joined search's own block. -/
theorem activate_handler_once_and_close (prov : Provider) (act : String → Bool)
    (st : EngState) (i k : Nat) :
    (∀ h : i < (flushK prov st k).2.lastResults.length,
        activationCalls (stepCmd prov act st (.Activate i) k).1
          = [(flushK prov st k).2.lastResults.get ⟨i, h⟩])
    ∧ ((flushK prov st k).2.lastResults.length ≤ i →
        activationCalls (stepCmd prov act st (.Activate i) k).1 = [])
    ∧ (outputs (stepCmd prov act st (.Activate i) k).1).count Reply.Close = 1
    ∧ outputs (stepCmd prov act st (.Activate i) k).1
        = outputs (flushK prov st k).1 ++ [Reply.Close]
    ∧ (stepCmd prov act st (.Activate i) k).2.2 = true := by
  rcases stepCmd_activate_exists prov act st i k with ⟨tl, hstep, htl, hin, hout⟩
  have hfa : activationCalls (flushK prov st k).1 = [] := by
    cases hp : st.pending with
    | none => rw [flushK_none hp]; rfl
    | some q => rw [flushK_some hp]; exact blockEvs_activationCalls prov q k
  have hfc : (outputs (flushK prov st k).1).count Reply.Close = 0 := by
    cases hp : st.pending with
    | none => rw [flushK_none hp]; rfl
    | some q => rw [flushK_some hp]; exact blockEvs_count_close prov q k
  refine ⟨?_, ?_, ?_, ?_, ?_⟩
  · intro h
    rw [hstep]
    simp [activationCalls_append, hfa, hin h]
  · intro h
    rw [hstep]
    simp [activationCalls_append, hfa, hout h]
  · rw [hstep]
    simp [outputs_append, htl, List.count_append, hfc]
  · rw [hstep]
    simp [outputs_append, htl]
  · rw [hstep]

/-- Claim C6: when the Search Provider fails (`(prov q).2 = true`), the search
still terminates normally — its block ends with its single `Finished` — and
the results already appended before the failure are published as the Result
Table, so a subsequent in-range `Activate(i)` invokes the handler with the
`i`-th of those partial results. -/
theorem provider_failure_still_finishes (prov : Provider) (act : String → Bool)
    (q : String) (k : Nat) (lr : List String) (herr : (prov q).2 = true) :
    (outputs (blockEvs prov q k)).getLast? = some Reply.Finished
    ∧ (outputs (blockEvs prov q k)).count Reply.Finished = 1
    ∧ (flushK prov ⟨lr, some q⟩ k).2.lastResults = (((prov q).1).take k).map (·.name)
    ∧ (∀ i, ∀ h : i < ((((prov q).1).take k).map (·.name)).length,
        activationCalls (stepCmd prov act (flushK prov ⟨lr, some q⟩ k).2 (.Activate i) 0).1
          = [((((prov q).1).take k).map (·.name)).get ⟨i, h⟩]) := by
  have hpend : (⟨lr, some q⟩ : EngState).pending = some q := rfl
  have hfl : (flushK prov ⟨lr, some q⟩ k).2 = flushedState prov q k := by rw [flushK_some hpend]
  refine ⟨blockEvs_last_finished prov q k, blockEvs_count_finished prov q k, ?_, ?_⟩
  · rw [hfl, flushedState_lastResults]
  · intro i h
    rw [hfl]
    rcases stepCmd_activate_exists prov act (flushedState prov q k) i 0
      with ⟨tl, hstep, htl, hin, hout⟩
    have hfk : flushK prov (flushedState prov q k) 0 = ([], flushedState prov q k) :=
      flushK_none (flushedState_pending prov q k) 0
    simp only [hfk, flushedState_lastResults] at hstep hin
    rw [hstep]
    simp [hin h, hfk]

/-- A concrete provider that always fails after producing one result. -/
def provErr : Provider := fun _ => ([resA], true)

theorem activate_handler_once_and_close_witness :
    (∀ h : 1 < (flushK provA (⟨["A", "B"], none⟩ : EngState) 0).2.lastResults.length,
        activationCalls (stepCmd provA actA (⟨["A", "B"], none⟩ : EngState) (.Activate 1) 0).1
          = [(flushK provA (⟨["A", "B"], none⟩ : EngState) 0).2.lastResults.get ⟨1, h⟩])
    ∧ ((flushK provA (⟨["A", "B"], none⟩ : EngState) 0).2.lastResults.length ≤ 1 →
        activationCalls (stepCmd provA actA (⟨["A", "B"], none⟩ : EngState) (.Activate 1) 0).1 = [])
    ∧ (outputs (stepCmd provA actA (⟨["A", "B"], none⟩ : EngState) (.Activate 1) 0).1).count
        Reply.Close = 1
    ∧ outputs (stepCmd provA actA (⟨["A", "B"], none⟩ : EngState) (.Activate 1) 0).1
        = outputs (flushK provA (⟨["A", "B"], none⟩ : EngState) 0).1 ++ [Reply.Close]
    ∧ (stepCmd provA actA (⟨["A", "B"], none⟩ : EngState) (.Activate 1) 0).2.2 = true :=
  activate_handler_once_and_close provA actA ⟨["A", "B"], none⟩ 1 0

theorem provider_failure_still_finishes_witness :
    (provErr "x").2 = true
    ∧ ((outputs (blockEvs provErr "x" 1)).getLast? = some Reply.Finished
      ∧ (outputs (blockEvs provErr "x" 1)).count Reply.Finished = 1
      ∧ (flushK provErr (⟨[], some "x"⟩ : EngState) 1).2.lastResults
          = (((provErr "x").1).take 1).map (·.name)
      ∧ (∀ i, ∀ h : i < ((((provErr "x").1).take 1).map (·.name)).length,
          activationCalls (stepCmd provErr actA (flushK provErr (⟨[], some "x"⟩ : EngState) 1).2
              (.Activate i) 0).1
            = [((((provErr "x").1).take 1).map (·.name)).get ⟨i, h⟩])) :=
  ⟨rfl, provider_failure_still_finishes provErr actA "x" 1 [] rfl⟩

/-! ## Lemmas about the application's search callback -/

theorem scanEntries_length_le (q : String) :
    ∀ (es : List (String × String)) (c : Nat), c < maxResults →
      (scanEntries q es c).length ≤ maxResults - c := by
  intro es
  induction es with
  | nil => intro c _; simp [scanEntries]
  | cons p es ih =>
    intro c hc
    rcases p with ⟨lower, original⟩
    simp only [scanEntries]
    split
    · exact ih c hc
    · split
      · split
        · next hmr =>
          simp only [List.length_cons, List.length_nil]
          simp only [maxResults] at hmr hc ⊢
          omega
        · next hmr =>
          simp only [List.length_cons]
          have hrec := ih (c + 1) (by simp only [maxResults] at hmr ⊢; omega)
          simp only [maxResults] at hrec hc ⊢
          omega
      · exact ih c hc

theorem oldScan_length_le (q : String) :
    ∀ (es : List (String × String)) (m : List String), m.length < maxResults →
      (oldScan q es m).length ≤ maxResults := by
  intro es
  induction es with
  | nil => intro m hm; simp only [oldScan]; omega
  | cons p es ih =>
    intro m hm
    rcases p with ⟨original, lower⟩
    simp only [oldScan]
    split
    · split
      · next hmr => simp only [List.length_append, List.length_cons, List.length_nil]; omega
      · next hmr =>
        refine ih (m ++ [original]) ?_
        simp only [List.length_append, List.length_cons, List.length_nil] at hmr ⊢
        omega
    · exact ih m hm

theorem lookupEntry_mem :
    ∀ (es : List (String × String)) (q v : String), lookupEntry es q = some v → (q, v) ∈ es := by
  intro es
  induction es with
  | nil => intro q v h; cases h
  | cons p es ih =>
    intro q v h
    rcases p with ⟨k, w⟩
    simp only [lookupEntry] at h
    split at h
    · next hk =>
      cases h
      subst hk
      exact List.mem_cons_self _ _
    · exact List.mem_cons_of_mem _ (ih q v h)

theorem scanEntries_names_sublist (q : String) :
    ∀ (es : List (String × String)) (c : Nat),
      ((scanEntries q es c).map (·.name)).Sublist (es.map Prod.snd) := by
  intro es
  induction es with
  | nil => intro c; simp [scanEntries]
  | cons p es ih =>
    intro c
    rcases p with ⟨lower, original⟩
    simp only [scanEntries]
    split
    · exact (ih c).cons _
    · split
      · split
        · exact (List.nil_sublist _).cons₂ original
        · exact (ih (c + 1)).cons₂ original
      · exact (ih c).cons _

theorem scanEntries_name_mem (q : String) :
    ∀ (es : List (String × String)) (c : Nat) (x : String),
      x ∈ (scanEntries q es c).map (·.name) → ∃ k2, (k2, x) ∈ es ∧ k2 ≠ q := by
  intro es
  induction es with
  | nil => intro c x h; simp [scanEntries] at h
  | cons p es ih =>
    intro c x h
    rcases p with ⟨lower, original⟩
    simp only [scanEntries] at h
    split at h
    · rcases ih c x h with ⟨k2, hmem, hne⟩
      exact ⟨k2, List.mem_cons_of_mem _ hmem, hne⟩
    · next hlow =>
      split at h
      · split at h
        · simp only [List.map_cons, List.map_nil, List.mem_singleton, mkAppRes] at h
          exact ⟨lower, by simp [h], hlow⟩
        · simp only [List.map_cons, List.mem_cons, mkAppRes] at h
          rcases h with h | h
          · exact ⟨lower, by simp [h], hlow⟩
          · rcases ih (c + 1) x h with ⟨k2, hmem, hne⟩
            exact ⟨k2, List.mem_cons_of_mem _ hmem, hne⟩
      · rcases ih c x h with ⟨k2, hmem, hne⟩
        exact ⟨k2, List.mem_cons_of_mem _ hmem, hne⟩

/-- A Go map from lowercased entries to originals has pairwise-distinct
values: the key determines the value through `lcString`. -/
theorem entries_values_nodup (entries : List (String × String))
    (hkeys : ∀ p ∈ entries, p.1 = lcString p.2)
    (hnodup : (entries.map Prod.fst).Nodup) :
    (entries.map Prod.snd).Nodup := by
  have hmap : entries.map Prod.fst = (entries.map Prod.snd).map lcString := by
    rw [List.map_map]
    exact List.map_congr_left hkeys
  rw [hmap] at hnodup
  exact hnodup.of_map _

/-- Claim C8: the launcher-based application's search callback appends at most
`maxResults = 19` entries in the substring scan plus at most one exact-match
entry, so each search emits at most 20 `Append` replies and the published
Result Table never exceeds 20 labels; the older inline engine of `main.go`
caps at 19 results in total. -/
theorem search_result_cap (entries : List (String × String)) (query : String)
    (lr : List String) (k : Nat) :
    (scanEntries (matchKey query) entries 0).length ≤ maxResults
    ∧ (onSearchApp entries query).length ≤ maxResults + 1
    ∧ (appendIds (blockEvs (appProvider entries) query k)).length ≤ maxResults + 1
    ∧ (flushK (appProvider entries) ⟨lr, some query⟩ k).2.lastResults.length ≤ maxResults + 1
    ∧ ∀ (es : List (String × String)) (q : String), (oldMatches es q).length ≤ maxResults := by
  have hscan : ∀ q', (scanEntries q' entries 0).length ≤ maxResults := by
    intro q'
    have := scanEntries_length_le q' entries 0 (by simp [maxResults])
    omega
  have happ : (onSearchApp entries query).length ≤ maxResults + 1 := by
    simp only [onSearchApp, List.length_append]
    have h1 : (match lookupEntry entries (matchKey query) with
        | some orig => [mkAppRes orig]
        | none => ([] : List SearchResult)).length ≤ 1 := by
      cases lookupEntry entries (matchKey query) <;> simp
    have h2 := hscan (matchKey query)
    omega
  refine ⟨hscan _, happ, ?_, ?_, ?_⟩
  · rw [blockEvs_appendIds]
    have h1 : (((appProvider entries query).1).take k).length ≤ (appProvider entries query).1.length := by
      rw [List.length_take]; exact Nat.min_le_right _ _
    have h2 : (appProvider entries query).1.length = (onSearchApp entries query).length := rfl
    simp only [List.length_range]
    omega
  · have hpend : ((⟨lr, some query⟩ : EngState)).pending = some query := rfl
    rw [flushK_some hpend, flushedState_lastResults]
    have h1 : (((appProvider entries query).1).take k).length ≤ (appProvider entries query).1.length := by
      rw [List.length_take]; exact Nat.min_le_right _ _
    have h2 : (appProvider entries query).1.length = (onSearchApp entries query).length := rfl
    simp only [List.length_map]
    omega
  · intro es q
    exact oldScan_length_le (matchKey q) es [] (by simp [maxResults])

/-- Claim C9: the application's search callback strips one leading `"gp "`
from the query and lowercases it before matching; if the lowercased query
exactly equals the stored lowercased form of some entry, that entry is
appended first — receiving id 0 from the engine's `appendResult` — and the
substring scan skips it, so (keys being unique in the Go map) no entry is
ever appended twice in one search. -/
theorem exact_match_first_no_duplicates (entries : List (String × String)) (query : String)
    (hkeys : ∀ p ∈ entries, p.1 = lcString p.2)
    (hnodup : (entries.map Prod.fst).Nodup) :
    (∀ l : List Char, matchKey ⟨'g' :: 'p' :: ' ' :: l⟩ = lcString ⟨l⟩)
    ∧ (∀ orig, lookupEntry entries (matchKey query) = some orig →
        (appendEvs [] (onSearchApp entries query)).head?
          = some (.emit (.Append 0 orig "Copy password to clipboard" (some "dialog-password"))))
    ∧ ((onSearchApp entries query).map (·.name)).Nodup := by
  have hscan : ((scanEntries (matchKey query) entries 0).map (·.name)).Nodup :=
    (entries_values_nodup entries hkeys hnodup).sublist
      (scanEntries_names_sublist (matchKey query) entries 0)
  refine ⟨fun l => rfl, ?_, ?_⟩
  · intro orig hlk
    have hicon : ("dialog-password" : String) ≠ "" := by decide
    simp only [onSearchApp, hlk, List.singleton_append, appendEvs, mkAppRes, iconOf,
      if_neg hicon, List.length_nil, List.head?_cons]
  · cases hlk : lookupEntry entries (matchKey query) with
    | none =>
      simp only [onSearchApp, hlk, List.nil_append]
      exact hscan
    | some orig =>
      simp only [onSearchApp, hlk, List.singleton_append, List.map_cons]
      refine List.Nodup.cons ?_ hscan
      intro hmem
      have hmem' : (mkAppRes orig).name ∈ (scanEntries (matchKey query) entries 0).map (·.name) := by
        simpa [mkAppRes] using hmem
      rcases scanEntries_name_mem (matchKey query) entries 0 _ hmem' with ⟨k2, hk2mem, hk2ne⟩
      have h1 : k2 = lcString orig := by
        have := hkeys (k2, (mkAppRes orig).name) hk2mem
        simpa [mkAppRes] using this
      have h2 : (matchKey query, orig) ∈ entries := lookupEntry_mem entries _ orig hlk
      have h3 : matchKey query = lcString orig := hkeys _ h2
      exact hk2ne (h1.trans h3.symm)

/-- Claim C10: `LoadConfig` on a nil receiver, or on a config with `OnSearch`
or `OnActivate` unset, returns an error, and `Run` then only logs it and
returns: no input line influences the run and no line is written to the
output stream. -/
theorem invalid_config_no_wire (c : GoConfig) (input : List Cmd) (ks : List Nat)
    (h : c.onSearch = none ∨ c.onActivate = none) :
    (∃ e, loadConfig none = .error e)
    ∧ (∃ e, loadConfig (some c) = .error e)
    ∧ runLauncher c input ks = [.logged]
    ∧ outputs (runLauncher c input ks) = [] := by
  have herr : ∃ e, loadConfig (some c) = .error e := by
    rcases h with h | h
    · exact ⟨"config OnSearch callback is required", by simp [loadConfig, h]⟩
    · cases hs : c.onSearch with
      | none => exact ⟨"config OnSearch callback is required", by simp [loadConfig, hs]⟩
      | some s =>
        exact ⟨"config OnActivate callback is required", by simp [loadConfig, hs, h]⟩
  rcases herr with ⟨e, he⟩
  refine ⟨⟨"config is nil", rfl⟩, ⟨e, he⟩, ?_, ?_⟩
  · simp [runLauncher, he]
  · simp [runLauncher, he]

theorem exact_match_first_no_duplicates_witness :
    (∀ p ∈ [("email/personal", "Email/personal"), ("email/work", "Email/work")],
        p.1 = lcString p.2)
    ∧ ([("email/personal", "Email/personal"), ("email/work", "Email/work")].map
        Prod.fst).Nodup
    ∧ ((∀ l : List Char, matchKey ⟨'g' :: 'p' :: ' ' :: l⟩ = lcString ⟨l⟩)
      ∧ (∀ orig,
          lookupEntry [("email/personal", "Email/personal"), ("email/work", "Email/work")]
              (matchKey "gp Email/work") = some orig →
          (appendEvs [] (onSearchApp
              [("email/personal", "Email/personal"), ("email/work", "Email/work")]
              "gp Email/work")).head?
            = some (.emit (.Append 0 orig "Copy password to clipboard"
                (some "dialog-password"))))
      ∧ ((onSearchApp [("email/personal", "Email/personal"), ("email/work", "Email/work")]
          "gp Email/work").map (·.name)).Nodup) :=
  ⟨by decide, by decide,
    exact_match_first_no_duplicates
      [("email/personal", "Email/personal"), ("email/work", "Email/work")]
      "gp Email/work" (by decide) (by decide)⟩

theorem invalid_config_no_wire_witness :
    ((⟨false, false, false, none, none⟩ : GoConfig).onSearch = none
      ∨ (⟨false, false, false, none, none⟩ : GoConfig).onActivate = none)
    ∧ ((∃ e, loadConfig none = .error e)
      ∧ (∃ e, loadConfig (some ⟨false, false, false, none, none⟩) = .error e)
      ∧ runLauncher ⟨false, false, false, none, none⟩ [.Search "x"] [] = [.logged]
      ∧ outputs (runLauncher ⟨false, false, false, none, none⟩ [.Search "x"] []) = []) :=
  ⟨Or.inl rfl, invalid_config_no_wire ⟨false, false, false, none, none⟩ [.Search "x"] []
    (Or.inl rfl)⟩

end GopassLauncher
